import Mathlib

/-!
Verification of the chunking-and-reassembly core of the book-reader audio
pipeline (`src/services/audioGenerator.ts`).

Texts are modelled as lists of characters (`Str`), files as a map from path
to byte list, and the two external capabilities (speech synthesis, lossless
audio merge) as oracle parameters.  The functions below are direct
translations of the TypeScript source; theorems at the end settle the
specification claims.
-/

set_option maxRecDepth 20000

abbrev Str := List Char

def str (s : String) : Str := s.data

/-- JavaScript `\s` whitespace class (the code points the source regexes
`\n\n+`, `(?<=[.!?])\s+`, `\s+` and `String.prototype.trim` treat as
whitespace; the common ones suffice for the character data in play). -/
def isWs (c : Char) : Bool :=
  c = ' ' || c = '\t' || c = '\n' || c = '\r' ||
  c.toNat = 11 || c.toNat = 12 || c.toNat = 160 ||
  c.toNat = 0x2028 || c.toNat = 0x2029 || c.toNat = 0xFEFF

/-- Model of `String.prototype.trim`: strip leading and trailing whitespace. -/
def jsTrim (s : Str) : Str :=
  ((s.dropWhile isWs).reverse.dropWhile isWs).reverse

/-- Scanner for `text.split(/\n\n+/)`: `pend` counts the newlines read but
not yet classified, `acc` holds the current token reversed. -/
def spAux : Str → Nat → Str → List Str
  | [], pend, acc =>
    if 2 ≤ pend then [acc.reverse, []]
    else [(List.replicate pend '\n' ++ acc).reverse]
  | c :: rest, pend, acc =>
    if c = '\n' then spAux rest (pend + 1) acc
    else if 2 ≤ pend then acc.reverse :: spAux rest 0 [c]
    else spAux rest 0 (c :: (List.replicate pend '\n' ++ acc))

/-- Model of `text.split(/\n\n+/)` — split at runs of two or more newlines. -/
def splitParas (s : Str) : List Str := spAux s 0 []

def isPunct (c : Char) : Bool := c = '.' || c = '!' || c = '?'

/-- Scanner state for the sentence splitter: either accumulating a token
(recording whether the previous character was `.`/`!`/`?`), or consuming
the whitespace run of a separator. -/
inductive SMode where
  | norm (prevPunct : Bool) (acc : Str)
  | sep

/-- Scanner for `paragraph.split(/(?<=[.!?])\s+/)`: a separator is a maximal
whitespace run whose preceding character is sentence-ending punctuation. -/
def ssAux : Str → SMode → List Str
  | [], .norm _ acc => [acc.reverse]
  | [], .sep => [[]]
  | c :: rest, .norm p acc =>
    if p && isWs c then acc.reverse :: ssAux rest .sep
    else ssAux rest (.norm (isPunct c) (c :: acc))
  | c :: rest, .sep =>
    if isWs c then ssAux rest .sep
    else ssAux rest (.norm (isPunct c) [c])

/-- Model of `paragraph.split(/(?<=[.!?])\s+/)` — split at sentence
boundaries. -/
def splitSentences (p : Str) : List Str := ssAux p (.norm false [])

/-- The `MAX_CHARS_PER_REQUEST` constant — Google TTS limit is 5000, the
source leaves a buffer. -/
def MAX_CHARS_PER_REQUEST : Nat := 4500

/-- The mutable state of `splitTextIntoChunks`' paragraph walk:
the completed `chunks` and the accumulating `currentChunk`. -/
structure ChunkSt where
  chunks : List Str
  cur : Str

/-- Body of the inner `for (const sentence of sentences)` loop of
`splitTextIntoChunks`. -/
def packSentence (st : ChunkSt) (s : Str) : ChunkSt :=
  if MAX_CHARS_PER_REQUEST < st.cur.length + s.length + 1 then
    { chunks := st.chunks ++ (if st.cur.isEmpty then [] else [jsTrim st.cur]),
      cur := s }
  else
    { st with cur := st.cur ++ (if st.cur.isEmpty then s else ' ' :: s) }

/-- Body of the outer `for (const paragraph of paragraphs)` loop of
`splitTextIntoChunks`. -/
def stepPara (st : ChunkSt) (p : Str) : ChunkSt :=
  if MAX_CHARS_PER_REQUEST < p.length then
    let st1 : ChunkSt :=
      if st.cur.isEmpty then st
      else { chunks := st.chunks ++ [jsTrim st.cur], cur := [] }
    (splitSentences p).foldl packSentence st1
  else
    let pot := st.cur ++ (if st.cur.isEmpty then p else '\n' :: '\n' :: p)
    if MAX_CHARS_PER_REQUEST < pot.length then
      { chunks := st.chunks ++ [jsTrim st.cur], cur := p }
    else
      { st with cur := pot }

/-- Model of `AudioGenerator.splitTextIntoChunks` (audioGenerator.ts lines
203-253): split text into chunks at paragraph boundaries, falling back to
sentence boundaries, respecting the max character limit. -/
def splitTextIntoChunks (text : Str) : List Str :=
  if text.length ≤ MAX_CHARS_PER_REQUEST then [text]
  else
    let st := (splitParas text).foldl stepPara ⟨[], []⟩
    st.chunks ++ (if st.cur.isEmpty then [] else [jsTrim st.cur])

/-- Model of `String.prototype.toLowerCase` on the character range the
filename pipeline cares about (only characters lowering into `a-z0-9`
survive the following filter). -/
def lowerChar (c : Char) : Char :=
  if 'A' ≤ c && c ≤ 'Z' then Char.ofNat (c.toNat + 32) else c

/-- Character class kept by `replace(/[^a-z0-9\s-]/g, '')`. -/
def isKeep (c : Char) : Bool :=
  ('a' ≤ c && c ≤ 'z') || ('0' ≤ c && c ≤ '9') || isWs c || c = '-'

/-- Model of `replace(/\s+/g, '-')`: each maximal whitespace run becomes a
single hyphen (`inRun` records being inside a run). -/
def wsRunsAux : Str → Bool → Str
  | [], _ => []
  | c :: rest, inRun =>
    if isWs c then
      (if inRun then wsRunsAux rest true else '-' :: wsRunsAux rest true)
    else c :: wsRunsAux rest false

/-- Model of the hyphen-run replace (regex dash-plus, global): each maximal
hyphen run becomes a single hyphen. -/
def hyRunsAux : Str → Bool → Str
  | [], _ => []
  | c :: rest, inRun =>
    if c = '-' then
      (if inRun then hyRunsAux rest true else '-' :: hyRunsAux rest true)
    else c :: hyRunsAux rest false

/-- Model of `replace(/^-|-$/g, '')`: remove one leading and one trailing
hyphen. -/
def stripEdgeHyphens (s : Str) : Str :=
  let s1 := if s.head? = some '-' then s.tail else s
  if s1.getLast? = some '-' then s1.dropLast else s1

/-- Model of `AudioGenerator.createCleanFileName` (audioGenerator.ts lines
156-164): lowercase, strip special characters, whitespace and hyphen runs
to single hyphens, strip edge hyphens, truncate to 100 characters. -/
def createCleanFileName (title : Str) : Str :=
  (stripEdgeHyphens
    (hyRunsAux (wsRunsAux ((title.map lowerChar).filter isKeep) false) false)).take 100

/-- The non-whitespace content of a text: the subsequence of characters the
whitespace class does not match.  Segmentation must preserve it. -/
def nws (s : Str) : Str := s.filter (fun c => !(isWs c))

/-- ASCII alphanumeric characters (the characters that can survive into the
cleaned filename). -/
def isAlnumChar (c : Char) : Bool :=
  ('a' ≤ c && c ≤ 'z') || ('A' ≤ c && c ≤ 'Z') || ('0' ≤ c && c ≤ '9')

/-- A title of 51 letters separated by single spaces: its cleaned form is
101 characters long, so the final truncation to 100 cuts between a letter
and the hyphen at index 99. -/
def titleX : Str := (List.replicate 50 (str "a ")).flatten ++ str "a"

/-- A segment is within the size bound, or is the trim of an atomic
sentence `v` (singled out by `P`) that itself exceeds the bound. -/
def GoodChunk (P : Str → Prop) (s : Str) : Prop :=
  s.length ≤ MAX_CHARS_PER_REQUEST ∨
    ∃ v, P v ∧ MAX_CHARS_PER_REQUEST < v.length ∧ s = jsTrim v

/-- The accumulating chunk is within the size bound, or is itself an
oversized atomic sentence. -/
def GoodCur (P : Str → Prop) (c : Str) : Prop :=
  c.length ≤ MAX_CHARS_PER_REQUEST ∨ (P c ∧ MAX_CHARS_PER_REQUEST < c.length)

/-- Size invariant of the chunking walk. -/
def InvSt (P : Str → Prop) (st : ChunkSt) : Prop :=
  (∀ s ∈ st.chunks, GoodChunk P s) ∧ GoodCur P st.cur

/-- An oversized single paragraph with no sentence break (4501 letters). -/
def bigA : Str := List.replicate 4501 'a'

/-- A 4504-character text: one oversized paragraph, a paragraph break, and
the one-letter paragraph `b`.  Splits into the two chunks `[bigA, "b"]`. -/
def bigT : Str := bigA ++ '\n' :: '\n' :: ['b']

/-! ## Effect model for the build pipeline

The filesystem is a map from path to byte content; the external speech
synthesis and audio merge capabilities are oracles supplied as parameters;
every run records the trace of external invocations. -/

/-- Audio payloads are opaque byte lists. -/
abbrev Audio := List Nat

/-- A filesystem: path to contents, `none` when absent. -/
structure FS where
  contents : Str → Option Audio

/-- Model of `fs.writeFileSync` (create or overwrite). -/
def FS.write (fs : FS) (p : Str) (b : Audio) : FS :=
  ⟨fun q => if q = p then some b else fs.contents q⟩

/-- Model of `fs.unlinkSync`. -/
def FS.unlink (fs : FS) (p : Str) : FS :=
  ⟨fun q => if q = p then none else fs.contents q⟩

/-- Model of `fs.existsSync`. -/
def FS.existsF (fs : FS) (p : Str) : Bool :=
  (fs.contents p).isSome

/-- File contents (used for `fs.statSync(..).size` and for merging). -/
def FS.read (fs : FS) (p : Str) : Audio :=
  (fs.contents p).getD []

def FS.empty : FS := ⟨fun _ => none⟩

/-- Outcome of one call to the external speech-synthesis capability:
failure, a response with no `audioContent`, or an audio payload. -/
inductive SynthRes where
  | err (msg : Str)
  | noContent
  | audio (bytes : Audio)

/-- Outcome of one ffmpeg concat invocation: success, or failure possibly
leaving a partially written output file (`residue`). -/
inductive MergeO where
  | ok
  | fail (residue : Option Audio) (msg : Str)

/-- The two external capabilities the core consumes. -/
structure Env where
  synthO : Str → SynthRes
  mergeO : MergeO

/-- One observable invocation of an external capability. -/
inductive Ev where
  | synth (text : Str)
  | merge (parts : List Str) (out : Str)

/-- Result of an effectful operation: value or error, final filesystem,
trace of external invocations. -/
structure Out (α : Type) where
  res : Except Str α
  fs : FS
  tr : List Ev

/-- The `AudioFile` record the source returns. -/
structure AudioFile where
  filePath : Str
  fileName : Str
  size : Nat

/-- Model of `path.join(dir, name)`. -/
def pathJoin (dir name : Str) : Str := dir ++ '/' :: name

/-- Model of `AudioGenerator.generateAudio` (audioGenerator.ts lines 45-85):
one synthesis call; on success write `dir/fileName.mp3`; wrap any failure
as a `TTS generation failed:` error. -/
def generateAudio (env : Env) (dir : Str) (fs : FS) (text fileName : Str) :
    Out AudioFile :=
  match env.synthO text with
  | .err m => ⟨.error (str "TTS generation failed: " ++ m), fs, [.synth text]⟩
  | .noContent =>
    ⟨.error (str "TTS generation failed: No audio content received from TTS service"),
      fs, [.synth text]⟩
  | .audio b =>
    let fp := pathJoin dir (fileName ++ str ".mp3")
    ⟨.ok ⟨fp, fileName ++ str ".mp3", b.length⟩, fs.write fp b, [.synth text]⟩

def digitChar (n : Nat) : Char := Char.ofNat (48 + n)

/-- Decimal digits of `n` (fuel-based to stay structurally recursive). -/
def toDigitsAux : Nat → Nat → Str
  | _, 0 => []
  | n, fuel + 1 =>
    if n < 10 then [digitChar n]
    else toDigitsAux (n / 10) fuel ++ [digitChar (n % 10)]

def natToStr (n : Nat) : Str := toDigitsAux n (n + 1)

/-- The `for (let i = 0; ...)` part-generation loop of
`generateChapterAudioWithChunking` (audioGenerator.ts lines 360-367):
synthesize chunk `i` into `base-part(i+1)` and collect the part file paths. -/
def synthLoop (env : Env) (dir base : Str) :
    List Str → Nat → FS → Except Str (List Str) × FS × List Ev
  | [], _, fs => (.ok [], fs, [])
  | c :: cs, i, fs =>
    let r := generateAudio env dir fs c (base ++ str "-part" ++ natToStr (i + 1))
    match r.res with
    | .error e => (.error e, r.fs, r.tr)
    | .ok af =>
      let rest := synthLoop env dir base cs (i + 1) r.fs
      (rest.1.map (fun ps => af.filePath :: ps), rest.2.1, r.tr ++ rest.2.2)

def concatListName : Str := str ".concat-list.txt"

/-- Model of `path.basename`. -/
def basename (p : Str) : Str :=
  (p.reverse.takeWhile (fun c => !(c = '/'))).reverse

/-- Contents of the temporary concat list file
(one line `file 'basename'` per part; the quote character is `Char.ofNat 39`). -/
def concatListContent (parts : List Str) : Audio :=
  ((parts.map (fun f =>
      str "file " ++ [Char.ofNat 39] ++ basename f ++ [Char.ofNat 39])).intersperse
    (str "\n")).flatten.map Char.toNat

/-- Model of `AudioGenerator.concatenateAudioFiles` (audioGenerator.ts lines
275-305): write the concat list, run ffmpeg; on success the output file is
the concatenation of the parts, then the concat list and all existing part
files are unlinked; on error the concat list is unlinked (if present) and
an `FFmpeg concatenation failed:` error is returned, with any partially
written output left in place. -/
def concatenateAudioFiles (env : Env) (dir : Str) (fs : FS)
    (parts : List Str) (outputFile : Str) : Out Unit :=
  let clp := pathJoin dir concatListName
  let fs0 := fs.write clp (concatListContent parts)
  match env.mergeO with
  | .ok =>
    let fs1 := fs0.write outputFile (parts.map fs0.read).flatten
    let fs2 := fs1.unlink clp
    let fs3 := parts.foldl (fun f p => if f.existsF p then f.unlink p else f) fs2
    ⟨.ok (), fs3, [.merge parts outputFile]⟩
  | .fail residue m =>
    let fs1 := match residue with
      | none => fs0
      | some b => fs0.write outputFile b
    let fs2 := if fs1.existsF clp then fs1.unlink clp else fs1
    ⟨.error (str "FFmpeg concatenation failed: " ++ m), fs2, [.merge parts outputFile]⟩

/-- Model of `AudioGenerator.generateChapterAudioWithChunking`
(audioGenerator.ts lines 338-383) from its chunking decision onward: the
two preprocessing steps (`createCleanFileName`, `cleanContentForTTS`) have
already produced `cleanFileName` and `cleanedContent`, which the theorems
quantify over. -/
def generateChapterAudioWithChunking (env : Env) (dir : Str) (fs : FS)
    (cleanFileName cleanedContent : Str) : Out AudioFile :=
  if cleanedContent.length ≤ MAX_CHARS_PER_REQUEST then
    generateAudio env dir fs cleanedContent cleanFileName
  else
    let chunks := splitTextIntoChunks cleanedContent
    let lp := synthLoop env dir cleanFileName chunks 0 fs
    match lp.1 with
    | .error e => ⟨.error e, lp.2.1, lp.2.2⟩
    | .ok parts =>
      let finalPath := pathJoin dir (cleanFileName ++ str ".mp3")
      let cr := concatenateAudioFiles env dir lp.2.1 parts finalPath
      match cr.res with
      | .error e => ⟨.error e, cr.fs, lp.2.2 ++ cr.tr⟩
      | .ok _ =>
        ⟨.ok ⟨finalPath, cleanFileName ++ str ".mp3", (cr.fs.read finalPath).length⟩,
          cr.fs, lp.2.2 ++ cr.tr⟩

/-- Texts sent to the synthesis capability, in invocation order. -/
def synthCalls (tr : List Ev) : List Str :=
  tr.filterMap fun e => match e with | .synth t => some t | _ => none

/-- Merge invocations (part list and output path), in invocation order. -/
def mergeCalls (tr : List Ev) : List (List Str × Str) :=
  tr.filterMap fun e => match e with | .merge ps o => some (ps, o) | _ => none

/-- Path of the 1-based `j`-th temporary part file of a build. -/
def partPath (dir base : Str) (j : Nat) : Str :=
  pathJoin dir (base ++ str "-part" ++ natToStr j ++ str ".mp3")

/-- Part file paths the loop produces for chunks `cs`, the first one having
1-based index `i + 1`. -/
def partPathsFrom (dir base : Str) (i : Nat) : List Str → List Str
  | [] => []
  | _ :: cs => partPath dir base (i + 1) :: partPathsFrom dir base (i + 1) cs

/-- The error a failed `generateAudio` call surfaces for a given synthesis
outcome (`none` when the outcome is a payload and the call succeeds). -/
def synthErrOf : SynthRes → Option Str
  | .err m => some (str "TTS generation failed: " ++ m)
  | .noContent =>
    some (str "TTS generation failed: No audio content received from TTS service")
  | .audio _ => none

/-- An environment whose synthesis capability always succeeds and whose
merge capability succeeds. -/
def envOK : Env := ⟨fun _ => .audio [7], .ok⟩

/-- An environment whose synthesis capability fails (message `boom`) on any
text of length at most one and succeeds otherwise; merge succeeds. -/
def envFail : Env :=
  ⟨fun t => if t.length ≤ 1 then .err (str "boom") else .audio [7], .ok⟩

/-- An environment whose synthesis always succeeds but whose merge fails
with message `boom`, leaving a partially written output file. -/
def envMergeFail : Env := ⟨fun _ => .audio [7], .fail (some [1]) (str "boom")⟩

def dir0 : Str := str "./audio"

def base0 : Str := str "chapter-4"


/-! ## Generic helper lemmas -/

theorem head?_take {α} {n : Nat} {l : List α} {c : α}
    (h : (l.take n).head? = some c) : l.head? = some c := by
  cases n with
  | zero => simp at h
  | succ m =>
    cases l with
    | nil => simp at h
    | cons a as => simpa using h

theorem head?_dropLast {α} {l : List α} {c : α}
    (h : l.dropLast.head? = some c) : l.head? = some c := by
  match l with
  | [] => simp at h
  | [a] => simp at h
  | a :: b :: rest =>
    have : (a :: b :: rest).dropLast = a :: (b :: rest).dropLast := rfl
    rw [this] at h
    simpa using h

/-! ## Lemmas about the filename pipeline (claim C10) -/

theorem hyRunsAux_true_head : ∀ s : Str, (hyRunsAux s true).head? ≠ some '-' := by
  intro s
  induction s with
  | nil => simp [hyRunsAux]
  | cons c rest ih =>
    by_cases hc : c = '-'
    · simpa [hyRunsAux, hc] using ih
    · simp [hyRunsAux, hc]

theorem hyRunsAux_false_cons_hyphen (s : Str) (rest : Str)
    (h : hyRunsAux s false = '-' :: rest) : rest.head? ≠ some '-' := by
  cases s with
  | nil => simp [hyRunsAux] at h
  | cons c s' =>
    by_cases hc : c = '-'
    · simp only [hyRunsAux, hc, if_true] at h
      cases h
      exact hyRunsAux_true_head s'
    · simp [hyRunsAux, hc] at h

theorem mem_wsRunsAux : ∀ (s : Str) (b : Bool) (c : Char),
    c ∈ wsRunsAux s b → c = '-' ∨ (c ∈ s ∧ isWs c = false) := by
  intro s
  induction s with
  | nil => intro b c h; simp [wsRunsAux] at h
  | cons a rest ih =>
    intro b c h
    by_cases ha : isWs a = true
    · cases b with
      | true =>
        simp only [wsRunsAux, ha, if_true] at h
        rcases ih true c h with h' | h'
        · exact Or.inl h'
        · exact Or.inr ⟨List.mem_cons_of_mem _ h'.1, h'.2⟩
      | false =>
        simp only [wsRunsAux, ha, if_true] at h
        rcases List.mem_cons.mp h with h' | h'
        · exact Or.inl h'
        · rcases ih true c h' with h'' | h''
          · exact Or.inl h''
          · exact Or.inr ⟨List.mem_cons_of_mem _ h''.1, h''.2⟩
    · simp only [wsRunsAux, ha, if_false, Bool.false_eq_true] at h
      rcases List.mem_cons.mp h with h' | h'
      · subst h'
        exact Or.inr ⟨List.mem_cons_self _ _, by simpa using ha⟩
      · rcases ih false c h' with h'' | h''
        · exact Or.inl h''
        · exact Or.inr ⟨List.mem_cons_of_mem _ h''.1, h''.2⟩

theorem mem_hyRunsAux : ∀ (s : Str) (b : Bool) (c : Char),
    c ∈ hyRunsAux s b → c = '-' ∨ c ∈ s := by
  intro s
  induction s with
  | nil => intro b c h; simp [hyRunsAux] at h
  | cons a rest ih =>
    intro b c h
    by_cases ha : a = '-'
    · cases b with
      | true =>
        simp only [hyRunsAux, ha, if_true] at h
        rcases ih true c h with h' | h'
        · exact Or.inl h'
        · exact Or.inr (List.mem_cons_of_mem _ h')
      | false =>
        simp only [hyRunsAux, ha, if_true] at h
        rcases List.mem_cons.mp h with h' | h'
        · exact Or.inl h'
        · rcases ih true c h' with h'' | h''
          · exact Or.inl h''
          · exact Or.inr (List.mem_cons_of_mem _ h'')
    · simp only [hyRunsAux, ha, if_false] at h
      rcases List.mem_cons.mp h with h' | h'
      · subst h'; exact Or.inr (List.mem_cons_self _ _)
      · rcases ih false c h' with h'' | h''
        · exact Or.inl h''
        · exact Or.inr (List.mem_cons_of_mem _ h'')

theorem mem_stripEdgeHyphens {c : Char} {s : Str}
    (h : c ∈ stripEdgeHyphens s) : c ∈ s := by
  unfold stripEdgeHyphens at h
  set s1 := if s.head? = some '-' then s.tail else s with hs1
  have hsub : c ∈ s1 → c ∈ s := by
    intro hc
    by_cases hh : s.head? = some '-'
    · rw [hs1] at hc; simp [hh] at hc; exact List.mem_of_mem_tail hc
    · rw [hs1] at hc; simpa [hh] using hc
  by_cases hl : s1.getLast? = some '-'
  · simp only [hl, if_true] at h
    exact hsub (List.dropLast_subset _ h)
  · simp only [hl, if_false] at h
    exact hsub h

theorem hyRunsAux_all_true (s : Str) (h : ∀ c ∈ s, c = '-') :
    hyRunsAux s true = [] := by
  induction s with
  | nil => rfl
  | cons c rest ih =>
    have hc : c = '-' := h c (List.mem_cons_self _ _)
    simp only [hyRunsAux, hc, if_true]
    exact ih (fun d hd => h d (List.mem_cons_of_mem _ hd))

theorem hyRunsAux_all_false (s : Str) (h : ∀ c ∈ s, c = '-') :
    hyRunsAux s false = if s.isEmpty then [] else ['-'] := by
  cases s with
  | nil => rfl
  | cons c rest =>
    have hc : c = '-' := h c (List.mem_cons_self _ _)
    simp only [hyRunsAux, hc, if_true, List.isEmpty_cons]
    rw [hyRunsAux_all_true rest (fun d hd => h d (List.mem_cons_of_mem _ hd))]

theorem stripEdgeHyphens_cons_hyphen (r : Str) :
    stripEdgeHyphens ('-' :: r) =
      if r.getLast? = some '-' then r.dropLast else r := by
  simp [stripEdgeHyphens]

theorem stripEdgeHyphens_cons_ne (c : Char) (r : Str) (hc : c ≠ '-') :
    stripEdgeHyphens (c :: r) =
      if (c :: r).getLast? = some '-' then (c :: r).dropLast else c :: r := by
  have hne : ¬((c :: r).head? = some '-') := by simp [hc]
  simp only [stripEdgeHyphens, if_neg hne]

theorem stripEdge_hyRuns_head (w : Str) :
    (stripEdgeHyphens (hyRunsAux w false)).head? ≠ some '-' := by
  intro hcontra
  rcases hh : hyRunsAux w false with _ | ⟨c, r⟩
  · rw [hh] at hcontra
    simp [stripEdgeHyphens] at hcontra
  · rw [hh] at hcontra
    by_cases hc : c = '-'
    · subst hc
      have hr := hyRunsAux_false_cons_hyphen w r hh
      rw [stripEdgeHyphens_cons_hyphen] at hcontra
      split at hcontra
      · exact hr (head?_dropLast hcontra)
      · exact hr hcontra
    · rw [stripEdgeHyphens_cons_ne c r hc] at hcontra
      have hne : ¬((c :: r).head? = some '-') := by simp [hc]
      split at hcontra
      · exact hne (head?_dropLast hcontra)
      · exact hne hcontra

/-- C10 (amended): every character of `createCleanFileName title` is a
lowercase letter, a digit or a hyphen; the name never starts with a hyphen
and has length at most 100; a title with no ASCII alphanumeric character
yields the empty name.  (The original claim's "no trailing hyphen" fails:
truncation to 100 characters can cut right after a hyphen, see the
counterexample.) -/
theorem createCleanFileName_spec (title : Str) :
    (∀ c ∈ createCleanFileName title,
        ('a' ≤ c ∧ c ≤ 'z') ∨ ('0' ≤ c ∧ c ≤ '9') ∨ c = '-') ∧
    (createCleanFileName title).head? ≠ some '-' ∧
    (createCleanFileName title).length ≤ 100 ∧
    ((∀ c ∈ title, isAlnumChar c = false) → createCleanFileName title = []) := by
  refine ⟨?_, ?_, ?_, ?_⟩
  · intro c hc
    have h1 : c ∈ stripEdgeHyphens
        (hyRunsAux (wsRunsAux ((title.map lowerChar).filter isKeep) false) false) :=
      List.take_subset _ _ hc
    have h2 := mem_stripEdgeHyphens h1
    rcases mem_hyRunsAux _ _ _ h2 with h3 | h3
    · exact Or.inr (Or.inr h3)
    · rcases mem_wsRunsAux _ _ _ h3 with h4 | h4
      · exact Or.inr (Or.inr h4)
      · obtain ⟨hmem, hnws⟩ := h4
        have hk : isKeep c = true := (List.mem_filter.mp hmem).2
        simp [isKeep, hnws, Bool.or_eq_true, Bool.and_eq_true,
          decide_eq_true_eq] at hk
        tauto
  · intro hcontra
    exact stripEdge_hyRuns_head _ (head?_take hcontra)
  · simp [createCleanFileName, List.length_take]
  · intro hna
    have hkept : ∀ c ∈ (title.map lowerChar).filter isKeep,
        isWs c = true ∨ c = '-' := by
      intro c hc
      obtain ⟨hmem, hk⟩ := List.mem_filter.mp hc
      obtain ⟨d, hd, rfl⟩ := List.mem_map.mp hmem
      have hdna := hna d hd
      by_cases hAZ : ('A' ≤ d && d ≤ 'Z') = true
      · exfalso
        simp [isAlnumChar, hAZ] at hdna
      · have hl : lowerChar d = d := by simp [lowerChar, hAZ]
        rw [hl] at hk ⊢
        have h1 : ('a' ≤ d && d ≤ 'z') = false := by
          cases h : ('a' ≤ d && d ≤ 'z') with
          | false => rfl
          | true => exfalso; simp [isAlnumChar, h] at hdna
        have h2 : ('0' ≤ d && d ≤ '9') = false := by
          cases h : ('0' ≤ d && d ≤ '9') with
          | false => rfl
          | true => exfalso; simp [isAlnumChar, h] at hdna
        simp only [isKeep, h1, h2, Bool.false_or, Bool.or_eq_true,
          decide_eq_true_eq] at hk
        exact hk
    have hall : ∀ c ∈ wsRunsAux ((title.map lowerChar).filter isKeep) false,
        c = '-' := by
      intro c hc
      rcases mem_wsRunsAux _ _ _ hc with h | ⟨hm, hnw⟩
      · exact h
      · rcases hkept c hm with h | h
        · rw [h] at hnw; cases hnw
        · exact h
    rw [createCleanFileName, hyRunsAux_all_false _ hall]
    split
    · rfl
    · decide

/-- C10 counterexample: for a title of 51 letters separated by spaces, the
derived filename is truncated to exactly 100 characters and ends with a
hyphen — refuting "has no leading or trailing hyphen". -/
theorem createCleanFileName_trailing_hyphen :
    (createCleanFileName titleX).getLast? = some '-' ∧
    (createCleanFileName titleX).length = 100 := by decide

/-- Witness for the amended C10 theorem at concrete titles. -/
theorem createCleanFileName_spec_witness :
    createCleanFileName (str "!!!") = [] ∧
    (createCleanFileName (str "The Great Book")).length ≤ 100 :=
  ⟨(createCleanFileName_spec (str "!!!")).2.2.2 (by decide),
   (createCleanFileName_spec (str "The Great Book")).2.2.1⟩

/-- C3 counterexample: on input `" "` (length 1 ≤ 4500) the splitter
returns the input unchanged, not the trimmed input — the short-circuit
path performs no trimming. -/
theorem splitTextIntoChunks_short_no_trim :
    splitTextIntoChunks (str " ") ≠ [jsTrim (str " ")] := by decide

/-- C3 (amended): for input at or under the ceiling, `splitTextIntoChunks`
returns exactly one segment equal to the input itself (untrimmed). -/
theorem splitTextIntoChunks_short_id (t : Str)
    (h : t.length ≤ MAX_CHARS_PER_REQUEST) : splitTextIntoChunks t = [t] := by
  simp [splitTextIntoChunks, h]

/-- Witness for the amended C3 theorem at a concrete input. -/
theorem splitTextIntoChunks_short_id_witness :
    (str "abc").length ≤ MAX_CHARS_PER_REQUEST ∧
    splitTextIntoChunks (str "abc") = [str "abc"] :=
  ⟨by decide, splitTextIntoChunks_short_id (str "abc") (by decide)⟩

/-! ## Non-whitespace content preservation (claims C1, C8) -/

theorem nws_append (a b : Str) : nws (a ++ b) = nws a ++ nws b := by
  simp [nws, List.filter_append]

theorem nws_reverse (s : Str) : nws s.reverse = (nws s).reverse := by
  induction s with
  | nil => rfl
  | cons c rest ih =>
    rw [List.reverse_cons, nws_append]
    by_cases h : isWs c = true <;>
      simp [nws, List.filter_cons, h, ih, List.reverse_cons]

theorem nws_cons (c : Char) (s : Str) : nws (c :: s) = nws [c] ++ nws s := by
  by_cases h : isWs c = true <;> simp [nws, List.filter_cons, h]

theorem nws_replicate_nl (n : Nat) : nws (List.replicate n '\n') = [] := by
  induction n with
  | zero => rfl
  | succ m ih => rw [List.replicate_succ, nws_cons, ih]; rfl

theorem nws_dropWhile (s : Str) : nws (s.dropWhile isWs) = nws s := by
  induction s with
  | nil => rfl
  | cons c rest ih =>
    by_cases h : isWs c = true
    · rw [List.dropWhile_cons_of_pos h, ih, nws_cons]
      simp [nws, List.filter_cons, h]
    · rw [List.dropWhile_cons_of_neg (by simp [h])]

theorem nws_jsTrim (s : Str) : nws (jsTrim s) = nws s := by
  unfold jsTrim
  rw [nws_reverse, nws_dropWhile, nws_reverse, nws_dropWhile, List.reverse_reverse]

theorem length_dropWhile_le (p : Char → Bool) (s : Str) :
    (s.dropWhile p).length ≤ s.length := by
  induction s with
  | nil => simp
  | cons c rest ih =>
    by_cases h : p c = true
    · rw [List.dropWhile_cons_of_pos h]
      exact le_trans ih (by simp)
    · rw [List.dropWhile_cons_of_neg (by simp [h])]

theorem jsTrim_length_le (s : Str) : (jsTrim s).length ≤ s.length := by
  unfold jsTrim
  rw [List.length_reverse]
  calc ((s.dropWhile isWs).reverse.dropWhile isWs).length
      ≤ (s.dropWhile isWs).reverse.length := length_dropWhile_le _ _
    _ = (s.dropWhile isWs).length := List.length_reverse _
    _ ≤ s.length := length_dropWhile_le _ _

theorem jsTrim_ne_nil_of_nws {s : Str} (h : nws s ≠ []) : jsTrim s ≠ [] := by
  intro hcontra
  apply h
  rw [← nws_jsTrim, hcontra]
  rfl

theorem nws_flatten (l : List Str) : nws l.flatten = (l.map nws).flatten := by
  induction l with
  | nil => rfl
  | cons s rest ih => simp [nws_append, ih]

theorem spAux_nws : ∀ (s : Str) (pend : Nat) (acc : Str),
    nws (spAux s pend acc).flatten = nws acc.reverse ++ nws s := by
  intro s
  induction s with
  | nil =>
    intro pend acc
    by_cases h : 2 ≤ pend
    · simp [spAux, h, nws_append, nws]
    · rw [show spAux [] pend acc = [(List.replicate pend '\n' ++ acc).reverse] by
        simp [spAux, h]]
      simp only [List.flatten_cons, List.flatten_nil, List.append_nil]
      rw [List.reverse_append, nws_append, nws_reverse, nws_reverse,
        nws_replicate_nl]
      simp [nws]
  | cons c rest ih =>
    intro pend acc
    by_cases hc : c = '\n'
    · rw [show spAux (c :: rest) pend acc = spAux rest (pend + 1) acc by
        simp [spAux, hc]]
      rw [ih, nws_cons]
      simp [hc, nws, isWs]
    · by_cases hp : 2 ≤ pend
      · rw [show spAux (c :: rest) pend acc = acc.reverse :: spAux rest 0 [c] by
          simp [spAux, hc, hp]]
        rw [List.flatten_cons, nws_append, ih, nws_cons c rest]
        simp [List.append_assoc]
      · rw [show spAux (c :: rest) pend acc
            = spAux rest 0 (c :: (List.replicate pend '\n' ++ acc)) by
          simp [spAux, hc, hp]]
        rw [ih, nws_cons c rest]
        simp [List.reverse_cons, List.reverse_append, nws_append, nws_reverse,
          nws_replicate_nl, List.append_assoc]

theorem splitParas_nws (t : Str) : nws (splitParas t).flatten = nws t := by
  simpa [nws] using spAux_nws t 0 []

theorem ssAux_nws : ∀ (s : Str) (m : SMode),
    nws (ssAux s m).flatten =
      (match m with | .norm _ acc => nws acc.reverse | .sep => []) ++ nws s := by
  intro s
  induction s with
  | nil =>
    intro m
    cases m with
    | norm p acc => simp [ssAux, nws]
    | sep => simp [ssAux, nws]
  | cons c rest ih =>
    intro m
    cases m with
    | norm p acc =>
      by_cases h : (p && isWs c) = true
      · rw [show ssAux (c :: rest) (.norm p acc) = acc.reverse :: ssAux rest .sep by
          simp [ssAux, h]]
        rw [List.flatten_cons, nws_append, ih, nws_cons c rest]
        have hw : isWs c = true := (Bool.and_eq_true _ _).mp h |>.2
        simp [nws, List.filter_cons, hw]
      · rw [show ssAux (c :: rest) (.norm p acc)
            = ssAux rest (.norm (isPunct c) (c :: acc)) by simp [ssAux, h]]
        rw [ih, nws_cons c rest]
        simp [List.reverse_cons, nws_append, List.append_assoc]
    | sep =>
      by_cases h : isWs c = true
      · rw [show ssAux (c :: rest) .sep = ssAux rest .sep by simp [ssAux, h]]
        rw [ih, nws_cons c rest]
        simp [nws, List.filter_cons, h]
      · rw [show ssAux (c :: rest) .sep = ssAux rest (.norm (isPunct c) [c]) by
          simp [ssAux, h]]
        rw [ih, nws_cons c rest]
        simp

theorem splitSentences_nws (p : Str) :
    nws (splitSentences p).flatten = nws p := by
  simpa [nws] using ssAux_nws p (.norm false [])

theorem isEmpty_eq_nil {s : Str} (h : s.isEmpty = true) : s = [] := by
  cases s with
  | nil => rfl
  | cons c rest => simp at h

theorem nws_nil : nws [] = [] := rfl

theorem nws_cons_ws {c : Char} (h : isWs c = true) (s : Str) :
    nws (c :: s) = nws s := by
  simp [nws, List.filter_cons, h]

theorem packSentence_nws (st : ChunkSt) (s : Str) :
    nws (packSentence st s).chunks.flatten ++ nws (packSentence st s).cur =
      (nws st.chunks.flatten ++ nws st.cur) ++ nws s := by
  obtain ⟨chs, cur⟩ := st
  by_cases hbig : MAX_CHARS_PER_REQUEST < cur.length + s.length + 1
  · by_cases h : cur.isEmpty
    · have hc : cur = [] := isEmpty_eq_nil h
      subst hc
      simp [packSentence, hbig, nws]
    · simp only [packSentence, hbig, if_true, h, Bool.false_eq_true, if_false]
      rw [List.flatten_append]
      simp [nws_append, nws_jsTrim, List.append_assoc, nws_nil]
  · by_cases h : cur.isEmpty
    · have hc : cur = [] := isEmpty_eq_nil h
      subst hc
      simp [packSentence, hbig, nws]
    · simp only [packSentence, hbig, if_false, h, Bool.false_eq_true]
      rw [nws_append, nws_cons_ws (by decide) s]
      simp [List.append_assoc]

theorem foldl_packSentence_nws (ss : List Str) : ∀ st : ChunkSt,
    nws ((ss.foldl packSentence st).chunks.flatten) ++
        nws (ss.foldl packSentence st).cur =
      (nws st.chunks.flatten ++ nws st.cur) ++ nws ss.flatten := by
  induction ss with
  | nil => intro st; simp [nws]
  | cons s ss ih =>
    intro st
    rw [List.foldl_cons, ih, packSentence_nws]
    simp [nws_append, List.append_assoc]

theorem stepPara_nws (st : ChunkSt) (p : Str) :
    nws (stepPara st p).chunks.flatten ++ nws (stepPara st p).cur =
      (nws st.chunks.flatten ++ nws st.cur) ++ nws p := by
  obtain ⟨chs, cur⟩ := st
  by_cases hbig : MAX_CHARS_PER_REQUEST < p.length
  · by_cases h : cur.isEmpty
    · have hc : cur = [] := isEmpty_eq_nil h
      subst hc
      simp only [stepPara, hbig, if_true, List.isEmpty_nil]
      rw [foldl_packSentence_nws, splitSentences_nws]
    · simp only [stepPara, hbig, if_true, h, Bool.false_eq_true, if_false]
      rw [foldl_packSentence_nws, splitSentences_nws, List.flatten_append]
      simp [nws_append, nws_jsTrim, List.append_assoc, nws_nil]
  · by_cases h : cur.isEmpty
    · have hc : cur = [] := isEmpty_eq_nil h
      subst hc
      simp only [stepPara, hbig, if_false, List.isEmpty_nil, if_true,
        List.nil_append]
      simp [nws_nil]
    · simp only [stepPara, hbig, if_false, h, Bool.false_eq_true]
      by_cases h2 : MAX_CHARS_PER_REQUEST < (cur ++ '\n' :: '\n' :: p).length
      · rw [if_pos h2, List.flatten_append]
        simp [nws_append, nws_jsTrim, List.append_assoc, nws_nil]
      · rw [if_neg h2, nws_append, nws_cons_ws (by decide),
          nws_cons_ws (by decide)]
        simp [List.append_assoc]

theorem foldl_stepPara_nws (ps : List Str) : ∀ st : ChunkSt,
    nws ((ps.foldl stepPara st).chunks.flatten) ++
        nws (ps.foldl stepPara st).cur =
      (nws st.chunks.flatten ++ nws st.cur) ++ nws ps.flatten := by
  induction ps with
  | nil => intro st; simp [nws_nil]
  | cons p ps ih =>
    intro st
    rw [List.foldl_cons, ih, stepPara_nws]
    simp [nws_append, List.append_assoc]

theorem nws_splitTextIntoChunks (t : Str) :
    nws (splitTextIntoChunks t).flatten = nws t := by
  by_cases h : t.length ≤ MAX_CHARS_PER_REQUEST
  · simp [splitTextIntoChunks, h]
  · simp only [splitTextIntoChunks, h, if_false]
    have hfold := foldl_stepPara_nws (splitParas t) ⟨[], []⟩
    simp only [List.flatten_nil, nws_nil, List.nil_append] at hfold
    set st := (splitParas t).foldl stepPara (⟨[], []⟩ : ChunkSt) with hst
    by_cases hc : st.cur.isEmpty
    · rw [isEmpty_eq_nil hc] at hfold
      simp only [hc, if_true, List.append_nil]
      rw [show nws ([] : Str) = [] from rfl, List.append_nil] at hfold
      rw [hfold, splitParas_nws]
    · simp only [hc, Bool.false_eq_true, if_false]
      rw [List.flatten_append]
      simp only [List.flatten_cons, List.flatten_nil, List.append_nil]
      rw [nws_append, nws_jsTrim, hfold, splitParas_nws]

theorem flatten_map_nws_nil (L : List Str) (hL : ∀ l ∈ L, nws l = []) :
    (L.map nws).flatten = [] := by
  induction L with
  | nil => rfl
  | cons a as ih =>
    simp only [List.map_cons, List.flatten_cons]
    rw [hL a (List.mem_cons_self _ _), ih (fun l hl => hL l (List.mem_cons_of_mem _ hl))]
    rfl

/-- C1: for every input text, concatenating all segments returned by
`splitTextIntoChunks` reproduces exactly the non-whitespace content of the
input, in order — no non-whitespace character is lost or duplicated. -/
theorem chunks_preserve_nonwhitespace (t : Str) :
    nws (splitTextIntoChunks t).flatten = nws t :=
  nws_splitTextIntoChunks t

/-- C8 counterexample: the non-empty input `" "` yields the single segment
`" "`, which is empty after trimming — so neither "every returned string is
non-empty after trimming" nor "at least one non-empty segment" holds. -/
theorem whitespace_input_empty_segment :
    splitTextIntoChunks (str " ") = [str " "] ∧ jsTrim (str " ") = [] := by
  decide

/-- C8 (amended): for every input containing at least one non-whitespace
character, at least one returned segment is non-empty after trimming
(whitespace-only inputs, and whitespace-only accumulated chunks, can yield
segments that trim to empty). -/
theorem segment_nonempty_of_content (t : Str)
    (h : ∃ c ∈ t, isWs c = false) :
    ∃ s ∈ splitTextIntoChunks t, jsTrim s ≠ [] := by
  obtain ⟨c, hc, hnw⟩ := h
  have h1 : nws t ≠ [] := by
    intro hnil
    have hmem : c ∈ nws t := List.mem_filter.mpr ⟨hc, by simp [hnw]⟩
    rw [hnil] at hmem
    exact absurd hmem (List.not_mem_nil c)
  have h2 : nws (splitTextIntoChunks t).flatten ≠ [] := by
    rw [nws_splitTextIntoChunks]; exact h1
  by_contra hall
  push_neg at hall
  apply h2
  rw [nws_flatten]
  refine flatten_map_nws_nil _ (fun s hs => ?_)
  have htrim : jsTrim s = [] := hall s hs
  have h3 := nws_jsTrim s
  rw [htrim] at h3
  exact h3.symm

/-- Witness for the amended C8 theorem at a concrete input. -/
theorem segment_nonempty_of_content_witness :
    (∃ c ∈ str "ab", isWs c = false) ∧
    ∃ s ∈ splitTextIntoChunks (str "ab"), jsTrim s ≠ [] :=
  ⟨⟨'a', by decide, by decide⟩,
   segment_nonempty_of_content (str "ab") ⟨'a', by decide, by decide⟩⟩

/-! ## Size bound of returned segments (claim C2) -/

theorem GoodChunk_of_GoodCur {P : Str → Prop} {c : Str} (h : GoodCur P c) :
    GoodChunk P (jsTrim c) := by
  rcases h with h | ⟨hp, hlen⟩
  · exact Or.inl (le_trans (jsTrim_length_le c) h)
  · exact Or.inr ⟨c, hp, hlen, rfl⟩

theorem packSentence_inv (P : Str → Prop) (st : ChunkSt) (u : Str)
    (hst : InvSt P st) (hu : P u) : InvSt P (packSentence st u) := by
  obtain ⟨chs, cur⟩ := st
  obtain ⟨hch, hcur⟩ := hst
  by_cases hbig : MAX_CHARS_PER_REQUEST < cur.length + u.length + 1
  · constructor
    · intro s hs
      simp only [packSentence, hbig, if_true] at hs
      rcases List.mem_append.mp hs with h | h
      · exact hch s h
      · by_cases he : cur.isEmpty
        · simp [he] at h
        · simp only [he, Bool.false_eq_true, if_false,
            List.mem_singleton] at h
          subst h
          exact GoodChunk_of_GoodCur hcur
    · simp only [packSentence, hbig, if_true]
      by_cases hle : u.length ≤ MAX_CHARS_PER_REQUEST
      · exact Or.inl hle
      · exact Or.inr ⟨hu, Nat.lt_of_not_le hle⟩
  · constructor
    · intro s hs
      simp only [packSentence, hbig, if_false] at hs
      exact hch s hs
    · simp only [packSentence, hbig, if_false]
      left
      by_cases he : cur.isEmpty
      · have hc : cur = [] := isEmpty_eq_nil he
        subst hc
        simp only [he, if_true, List.nil_append]
        simp at hbig
        omega
      · simp only [he, Bool.false_eq_true, if_false, List.length_append,
          List.length_cons]
        simp at hbig
        omega

theorem foldl_packSentence_inv (P : Str → Prop) (ss : List Str)
    (hss : ∀ u ∈ ss, P u) :
    ∀ st, InvSt P st → InvSt P (ss.foldl packSentence st) := by
  induction ss with
  | nil => intro st h; exact h
  | cons u ss ih =>
    intro st h
    rw [List.foldl_cons]
    exact ih (fun v hv => hss v (List.mem_cons_of_mem _ hv)) _
      (packSentence_inv P st u h (hss u (List.mem_cons_self _ _)))

theorem stepPara_inv (P : Str → Prop) (st : ChunkSt) (p : Str)
    (hp : MAX_CHARS_PER_REQUEST < p.length → ∀ u ∈ splitSentences p, P u)
    (h : InvSt P st) : InvSt P (stepPara st p) := by
  obtain ⟨chs, cur⟩ := st
  obtain ⟨hch, hcur⟩ := h
  by_cases hbig : MAX_CHARS_PER_REQUEST < p.length
  · have hsent := hp hbig
    by_cases he : cur.isEmpty
    · simp only [stepPara, hbig, if_true, he]
      exact foldl_packSentence_inv P _ hsent _ ⟨hch, hcur⟩
    · simp only [stepPara, hbig, if_true, he, Bool.false_eq_true, if_false]
      refine foldl_packSentence_inv P _ hsent _ ⟨?_, Or.inl (by simp)⟩
      intro s hs
      rcases List.mem_append.mp hs with h | h
      · exact hch s h
      · rw [List.mem_singleton] at h
        subst h
        exact GoodChunk_of_GoodCur hcur
  · by_cases he : cur.isEmpty
    · have hc : cur = [] := isEmpty_eq_nil he
      subst hc
      simp only [stepPara, hbig, if_false, List.isEmpty_nil, if_true,
        List.nil_append]
      exact ⟨hch, Or.inl (Nat.le_of_not_lt hbig)⟩
    · simp only [stepPara, hbig, if_false, he, Bool.false_eq_true]
      by_cases h2 : MAX_CHARS_PER_REQUEST < (cur ++ '\n' :: '\n' :: p).length
      · rw [if_pos h2]
        refine ⟨?_, Or.inl (Nat.le_of_not_lt hbig)⟩
        intro s hs
        rcases List.mem_append.mp hs with h | h
        · exact hch s h
        · rw [List.mem_singleton] at h
          subst h
          exact GoodChunk_of_GoodCur hcur
      · rw [if_neg h2]
        exact ⟨hch, Or.inl (Nat.le_of_not_lt h2)⟩

theorem foldl_stepPara_inv (P : Str → Prop) (ps : List Str)
    (hps : ∀ p ∈ ps, MAX_CHARS_PER_REQUEST < p.length →
      ∀ u ∈ splitSentences p, P u) :
    ∀ st, InvSt P st → InvSt P (ps.foldl stepPara st) := by
  induction ps with
  | nil => intro st h; exact h
  | cons p ps ih =>
    intro st h
    rw [List.foldl_cons]
    exact ih (fun q hq => hps q (List.mem_cons_of_mem _ hq)) _
      (stepPara_inv P st p (hps p (List.mem_cons_self _ _)) h)

/-- C2: for input over the ceiling, every returned segment is within the
4500-character bound, except segments that are (the trim of) a single
atomic sentence of an oversized paragraph whose own length exceeds the
bound — such sentences are carried whole. -/
theorem chunk_size_bound (t : Str)
    (hbig : MAX_CHARS_PER_REQUEST < t.length) :
    ∀ s ∈ splitTextIntoChunks t,
      s.length ≤ MAX_CHARS_PER_REQUEST ∨
        ∃ p ∈ splitParas t, MAX_CHARS_PER_REQUEST < p.length ∧
          ∃ u ∈ splitSentences p,
            MAX_CHARS_PER_REQUEST < u.length ∧ s = jsTrim u := by
  intro s hs
  have hinv : InvSt (fun u => ∃ p ∈ splitParas t,
      MAX_CHARS_PER_REQUEST < p.length ∧ u ∈ splitSentences p)
      ((splitParas t).foldl stepPara ⟨[], []⟩) := by
    refine foldl_stepPara_inv _ (splitParas t)
      (fun p hp hlen u hu => ⟨p, hp, hlen, hu⟩) _ ⟨?_, Or.inl (by simp)⟩
    intro x hx
    exact absurd hx (List.not_mem_nil x)
  obtain ⟨hch, hcur⟩ := hinv
  have hns : ¬(t.length ≤ MAX_CHARS_PER_REQUEST) := not_le.mpr hbig
  simp only [splitTextIntoChunks, hns, if_false] at hs
  rcases List.mem_append.mp hs with h | h
  · rcases hch s h with h' | ⟨v, hv, hvlen, rfl⟩
    · exact Or.inl h'
    · obtain ⟨p, hp, hplen, hvsent⟩ := hv
      exact Or.inr ⟨p, hp, hplen, v, hvsent, hvlen, rfl⟩
  · by_cases he : ((splitParas t).foldl stepPara ⟨[], []⟩).cur.isEmpty
    · simp [he] at h
    · simp only [he, Bool.false_eq_true, if_false, List.mem_singleton] at h
      subst h
      rcases GoodChunk_of_GoodCur hcur with h' | ⟨v, hv, hvlen, heq⟩
      · exact Or.inl h'
      · obtain ⟨p, hp, hplen, hvsent⟩ := hv
        exact Or.inr ⟨p, hp, hplen, v, hvsent, hvlen, heq⟩

/-! ## Evaluation of the splitter on the concrete oversized text `bigT` -/

theorem spAux_no_newline : ∀ (s acc : Str), '\n' ∉ s →
    spAux s 0 acc = [acc.reverse ++ s] := by
  intro s
  induction s with
  | nil => intro acc _; simp [spAux]
  | cons c rest ih =>
    intro acc h
    have hc : c ≠ '\n' := fun hcc => h (hcc ▸ List.mem_cons_self _ _)
    rw [show spAux (c :: rest) 0 acc = spAux rest 0 (c :: acc) by
      simp [spAux, hc]]
    rw [ih _ (fun hm => h (List.mem_cons_of_mem _ hm))]
    simp

theorem spAux_sep : ∀ (s acc : Str), '\n' ∉ s → ∀ z : Str, '\n' ∉ z → z ≠ [] →
    spAux (s ++ '\n' :: '\n' :: z) 0 acc = [acc.reverse ++ s, z] := by
  intro s
  induction s with
  | nil =>
    intro acc _ z hz hzne
    simp only [List.nil_append]
    rw [show spAux ('\n' :: '\n' :: z) 0 acc = spAux ('\n' :: z) 1 acc by
      simp [spAux]]
    rw [show spAux ('\n' :: z) 1 acc = spAux z 2 acc by simp [spAux]]
    cases z with
    | nil => exact absurd rfl hzne
    | cons w z2 =>
      have hw : w ≠ '\n' := fun hww => hz (hww ▸ List.mem_cons_self _ _)
      rw [show spAux (w :: z2) 2 acc = acc.reverse :: spAux z2 0 [w] by
        simp [spAux, hw]]
      rw [spAux_no_newline z2 [w] (fun hm => hz (List.mem_cons_of_mem _ hm))]
      simp
  | cons c rest ih =>
    intro acc h z hz hzne
    have hc : c ≠ '\n' := fun hcc => h (hcc ▸ List.mem_cons_self _ _)
    simp only [List.cons_append]
    rw [show spAux (c :: (rest ++ '\n' :: '\n' :: z)) 0 acc
        = spAux (rest ++ '\n' :: '\n' :: z) 0 (c :: acc) by simp [spAux, hc]]
    rw [ih (c :: acc) (fun hm => h (List.mem_cons_of_mem _ hm)) z hz hzne]
    simp

theorem ssAux_no_sep : ∀ (s : Str) (p : Bool) (acc : Str),
    (∀ c ∈ s, isWs c = false) → ssAux s (.norm p acc) = [acc.reverse ++ s] := by
  intro s
  induction s with
  | nil => intro p acc _; simp [ssAux]
  | cons c rest ih =>
    intro p acc h
    have hc : isWs c = false := h c (List.mem_cons_self _ _)
    rw [show ssAux (c :: rest) (.norm p acc)
        = ssAux rest (.norm (isPunct c) (c :: acc)) by simp [ssAux, hc]]
    rw [ih _ _ (fun d hd => h d (List.mem_cons_of_mem _ hd))]
    simp

theorem dropWhile_no (p : Char → Bool) (s : Str) (h : ∀ c ∈ s, p c = false) :
    s.dropWhile p = s := by
  cases s with
  | nil => rfl
  | cons c rest =>
    rw [List.dropWhile_cons_of_neg (by simp [h c (List.mem_cons_self _ _)])]

theorem jsTrim_no_ws (s : Str) (h : ∀ c ∈ s, isWs c = false) : jsTrim s = s := by
  unfold jsTrim
  rw [dropWhile_no _ _ h,
    dropWhile_no _ _ (fun c hc => h c (List.mem_reverse.mp hc)),
    List.reverse_reverse]

theorem noWs_bigA : ∀ c ∈ bigA, isWs c = false := by
  intro c hc
  simp only [bigA, List.mem_replicate] at hc
  rw [hc.2]
  decide

theorem noNl_bigA : '\n' ∉ bigA := by
  intro h
  simp only [bigA, List.mem_replicate] at h
  exact absurd h.2 (by decide)

theorem bigA_length : bigA.length = 4501 := by
  rw [bigA, List.length_replicate]

theorem bigT_length : bigT.length = 4504 := by
  rw [bigT, List.length_append, bigA_length]
  decide

theorem bigA_isEmpty : bigA.isEmpty = false := by
  cases hb : bigA with
  | nil =>
    exfalso
    have h := bigA_length
    rw [hb] at h
    simp at h
  | cons c r => rfl

theorem splitParas_bigT : splitParas bigT = [bigA, ['b']] := by
  rw [bigT, splitParas, spAux_sep bigA [] noNl_bigA ['b'] (by decide) (by decide)]
  simp

theorem splitSentences_bigA : splitSentences bigA = [bigA] := by
  rw [splitSentences, ssAux_no_sep bigA false [] noWs_bigA]
  simp

theorem jsTrim_bigA : jsTrim bigA = bigA := jsTrim_no_ws bigA noWs_bigA

theorem chunks_two_para (A b' T : Str)
    (hA : MAX_CHARS_PER_REQUEST < A.length)
    (hAsent : splitSentences A = [A]) (hAtrim : jsTrim A = A)
    (hAne : A.isEmpty = false)
    (hb : ¬(MAX_CHARS_PER_REQUEST < b'.length))
    (hApot : MAX_CHARS_PER_REQUEST < (A ++ '\n' :: '\n' :: b').length)
    (hbtrim : jsTrim b' = b') (hbne : b'.isEmpty = false)
    (hparas : splitParas T = [A, b'])
    (hT : ¬(T.length ≤ MAX_CHARS_PER_REQUEST)) :
    splitTextIntoChunks T = [A, b'] := by
  rw [splitTextIntoChunks, if_neg hT, hparas, List.foldl_cons,
    List.foldl_cons, List.foldl_nil]
  have h1 : stepPara ⟨[], []⟩ A = (⟨[], A⟩ : ChunkSt) := by
    simp only [stepPara, hA, if_true, List.isEmpty_nil]
    rw [hAsent, List.foldl_cons, List.foldl_nil]
    have hcc : MAX_CHARS_PER_REQUEST < ([] : Str).length + A.length + 1 := by
      simp only [List.length_nil]
      omega
    simp only [packSentence, hcc, if_true, List.isEmpty_nil, if_true,
      List.append_nil]
  rw [h1]
  have h2 : stepPara ⟨[], A⟩ b' = (⟨[A], b'⟩ : ChunkSt) := by
    simp only [stepPara, hb, if_false, hAne, Bool.false_eq_true]
    rw [if_pos hApot, hAtrim]
    rfl
  rw [h2]
  simp only [hbne, Bool.false_eq_true, if_false, hbtrim]
  rfl

theorem chunks_bigT : splitTextIntoChunks bigT = [bigA, ['b']] := by
  refine chunks_two_para bigA ['b'] bigT ?_ splitSentences_bigA jsTrim_bigA
    bigA_isEmpty (by decide) ?_ (by decide) rfl splitParas_bigT ?_
  · rw [bigA_length]; decide
  · rw [List.length_append, bigA_length]; decide
  · rw [bigT_length]; decide

/-- Witness for the C2 theorem at the concrete 4504-character input. -/
theorem chunk_size_bound_witness :
    MAX_CHARS_PER_REQUEST < bigT.length ∧
    ∀ s ∈ splitTextIntoChunks bigT,
      s.length ≤ MAX_CHARS_PER_REQUEST ∨
        ∃ p ∈ splitParas bigT, MAX_CHARS_PER_REQUEST < p.length ∧
          ∃ u ∈ splitSentences p,
            MAX_CHARS_PER_REQUEST < u.length ∧ s = jsTrim u :=
  ⟨by rw [bigT_length]; decide,
   chunk_size_bound bigT (by rw [bigT_length]; decide)⟩

/-! ## Basic properties of the effect model -/

theorem FS.existsF_write_self (fs : FS) (p : Str) (b : Audio) :
    (fs.write p b).existsF p = true := by
  simp [FS.write, FS.existsF]

theorem FS.existsF_write_mono {fs : FS} {p : Str} (q : Str) (b : Audio)
    (h : fs.existsF p = true) : (fs.write q b).existsF p = true := by
  simp only [FS.write, FS.existsF] at *
  by_cases hpq : p = q <;> simp [hpq, h]

theorem FS.contents_write_ne {fs : FS} {q p : Str} (b : Audio) (h : p ≠ q) :
    (fs.write q b).contents p = fs.contents p := by
  simp [FS.write, h]

theorem FS.contents_unlink_ne {fs : FS} {q p : Str} (h : p ≠ q) :
    (fs.unlink q).contents p = fs.contents p := by
  simp [FS.unlink, h]

theorem FS.existsF_unlink_self (fs : FS) (p : Str) :
    (fs.unlink p).existsF p = false := by
  simp [FS.unlink, FS.existsF]

theorem generateAudio_of_err {env : Env} {text : Str} {e : Str}
    (dir : Str) (fs : FS) (fn : Str)
    (h : synthErrOf (env.synthO text) = some e) :
    generateAudio env dir fs text fn = ⟨.error e, fs, [.synth text]⟩ := by
  cases ho : env.synthO text with
  | err m =>
    rw [ho] at h
    simp only [synthErrOf, Option.some.injEq] at h
    simp [generateAudio, ho, h]
  | noContent =>
    rw [ho] at h
    simp only [synthErrOf, Option.some.injEq] at h
    simp [generateAudio, ho, h]
  | audio b =>
    rw [ho] at h
    simp [synthErrOf] at h

theorem generateAudio_of_audio {env : Env} {text : Str} {b : Audio}
    (dir : Str) (fs : FS) (fn : Str) (h : env.synthO text = .audio b) :
    generateAudio env dir fs text fn =
      ⟨.ok ⟨pathJoin dir (fn ++ str ".mp3"), fn ++ str ".mp3", b.length⟩,
        fs.write (pathJoin dir (fn ++ str ".mp3")) b, [.synth text]⟩ := by
  simp [generateAudio, h]

theorem synthCalls_append (a b : List Ev) :
    synthCalls (a ++ b) = synthCalls a ++ synthCalls b := by
  simp [synthCalls, List.filterMap_append]

theorem mergeCalls_append (a b : List Ev) :
    mergeCalls (a ++ b) = mergeCalls a ++ mergeCalls b := by
  simp [mergeCalls, List.filterMap_append]

theorem synthCalls_map_synth (cs : List Str) :
    synthCalls (cs.map Ev.synth) = cs := by
  induction cs with
  | nil => rfl
  | cons c cs ih =>
    simp only [synthCalls, List.map_cons, List.filterMap_cons] at ih ⊢
    rw [ih]

theorem mergeCalls_map_synth (cs : List Str) :
    mergeCalls (cs.map Ev.synth) = [] := by
  induction cs with
  | nil => rfl
  | cons c cs ih =>
    simp only [mergeCalls, List.map_cons, List.filterMap_cons] at ih ⊢
    rw [ih]

/-- C6: a build whose cleaned text is at or under the ceiling takes the
Direct path — the trace is exactly one synthesis call on the cleaned text:
synthesis is invoked exactly once and the merge capability never. -/
theorem direct_path_single_synth (env : Env) (dir : Str) (fs : FS)
    (base cleaned : Str) (h : cleaned.length ≤ MAX_CHARS_PER_REQUEST) :
    (generateChapterAudioWithChunking env dir fs base cleaned).tr
        = [Ev.synth cleaned] ∧
    (synthCalls (generateChapterAudioWithChunking env dir fs base cleaned).tr).length
        = 1 ∧
    mergeCalls (generateChapterAudioWithChunking env dir fs base cleaned).tr
        = [] := by
  have htr : (generateChapterAudioWithChunking env dir fs base cleaned).tr
      = [Ev.synth cleaned] := by
    rw [generateChapterAudioWithChunking, if_pos h]
    cases ho : env.synthO cleaned with
    | err m => simp [generateAudio, ho]
    | noContent => simp [generateAudio, ho]
    | audio b => simp [generateAudio, ho]
  refine ⟨htr, ?_, ?_⟩ <;> rw [htr] <;> simp [synthCalls, mergeCalls]

/-- Witness for the C6 theorem at a concrete short input. -/
theorem direct_path_single_synth_witness :
    (str "hello").length ≤ MAX_CHARS_PER_REQUEST ∧
    (generateChapterAudioWithChunking envOK dir0 FS.empty base0 (str "hello")).tr
        = [Ev.synth (str "hello")] :=
  ⟨by decide,
   (direct_path_single_synth envOK dir0 FS.empty base0 (str "hello") (by decide)).1⟩

/-! ## The part-generation loop -/

theorem synthLoop_cons_err (env : Env) (dir base c : Str) (cs : List Str)
    (i : Nat) (fs : FS) {e : Str} (he : synthErrOf (env.synthO c) = some e) :
    synthLoop env dir base (c :: cs) i fs = (.error e, fs, [.synth c]) := by
  simp only [synthLoop]
  rw [generateAudio_of_err dir fs (base ++ str "-part" ++ natToStr (i + 1)) he]

theorem synthLoop_cons_audio (env : Env) (dir base c : Str) (cs : List Str)
    (i : Nat) (fs : FS) {b : Audio} (hb : env.synthO c = .audio b) :
    synthLoop env dir base (c :: cs) i fs =
      ((synthLoop env dir base cs (i + 1)
          (fs.write (partPath dir base (i + 1)) b)).1.map
          (fun ps => partPath dir base (i + 1) :: ps),
       (synthLoop env dir base cs (i + 1)
          (fs.write (partPath dir base (i + 1)) b)).2.1,
       Ev.synth c :: (synthLoop env dir base cs (i + 1)
          (fs.write (partPath dir base (i + 1)) b)).2.2) := by
  simp only [synthLoop]
  rw [generateAudio_of_audio dir fs (base ++ str "-part" ++ natToStr (i + 1)) hb]
  rfl

theorem synthRes_audio_of_errNone {env : Env} {c : Str}
    (hv : synthErrOf (env.synthO c) = none) : ∃ b, env.synthO c = .audio b := by
  cases ho : env.synthO c with
  | err m => rw [ho] at hv; simp [synthErrOf] at hv
  | noContent => rw [ho] at hv; simp [synthErrOf] at hv
  | audio b => exact ⟨b, rfl⟩

theorem synthLoop_exists_mono (env : Env) (dir base : Str) :
    ∀ (cs : List Str) (i : Nat) (fs : FS) (p : Str),
      fs.existsF p = true →
      (synthLoop env dir base cs i fs).2.1.existsF p = true := by
  intro cs
  induction cs with
  | nil => intro i fs p h; exact h
  | cons c cs ih =>
    intro i fs p h
    cases hv : synthErrOf (env.synthO c) with
    | some e =>
      rw [synthLoop_cons_err env dir base c cs i fs hv]
      exact h
    | none =>
      obtain ⟨b, hb⟩ := synthRes_audio_of_errNone hv
      rw [synthLoop_cons_audio env dir base c cs i fs hb]
      exact ih _ _ _ (FS.existsF_write_mono _ _ h)

theorem synthLoop_ok (env : Env) (dir base : Str) :
    ∀ (cs : List Str) (i : Nat) (fs : FS),
      (∀ c ∈ cs, ∃ b, env.synthO c = .audio b) →
      (synthLoop env dir base cs i fs).1 = .ok (partPathsFrom dir base i cs) ∧
      (synthLoop env dir base cs i fs).2.2 = cs.map Ev.synth ∧
      ∀ p ∈ partPathsFrom dir base i cs,
        (synthLoop env dir base cs i fs).2.1.existsF p = true := by
  intro cs
  induction cs with
  | nil =>
    intro i fs _
    exact ⟨rfl, rfl, by intro p hp; simp [partPathsFrom] at hp⟩
  | cons c cs ih =>
    intro i fs h
    obtain ⟨b, hb⟩ := h c (List.mem_cons_self _ _)
    rw [synthLoop_cons_audio env dir base c cs i fs hb]
    obtain ⟨h1, h2, h3⟩ := ih (i + 1) (fs.write (partPath dir base (i + 1)) b)
      (fun x hx => h x (List.mem_cons_of_mem _ hx))
    refine ⟨?_, ?_, ?_⟩
    · rw [h1]; rfl
    · rw [h2]; rfl
    · intro p hp
      simp only [partPathsFrom] at hp
      rcases List.mem_cons.mp hp with rfl | hp'
      · exact synthLoop_exists_mono env dir base cs (i + 1) _ _
          (FS.existsF_write_self _ _ _)
      · exact h3 p hp'

theorem synthLoop_fail (env : Env) (dir base : Str) :
    ∀ (cs₁ : List Str) (c : Str) (cs₂ : List Str) (i : Nat) (fs : FS) (e : Str),
      (∀ x ∈ cs₁, ∃ b, env.synthO x = .audio b) →
      synthErrOf (env.synthO c) = some e →
      (synthLoop env dir base (cs₁ ++ c :: cs₂) i fs).1 = .error e ∧
      (synthLoop env dir base (cs₁ ++ c :: cs₂) i fs).2.2
          = (cs₁ ++ [c]).map Ev.synth ∧
      ∀ p ∈ partPathsFrom dir base i cs₁,
        (synthLoop env dir base (cs₁ ++ c :: cs₂) i fs).2.1.existsF p = true := by
  intro cs₁
  induction cs₁ with
  | nil =>
    intro c cs₂ i fs e _ he
    rw [List.nil_append, synthLoop_cons_err env dir base c cs₂ i fs he]
    exact ⟨rfl, rfl, by intro p hp; simp [partPathsFrom] at hp⟩
  | cons x cs₁ ih =>
    intro c cs₂ i fs e hok he
    obtain ⟨b, hb⟩ := hok x (List.mem_cons_self _ _)
    rw [List.cons_append, synthLoop_cons_audio env dir base x _ i fs hb]
    obtain ⟨h1, h2, h3⟩ := ih c cs₂ (i + 1)
      (fs.write (partPath dir base (i + 1)) b) e
      (fun y hy => hok y (List.mem_cons_of_mem _ hy)) he
    refine ⟨?_, ?_, ?_⟩
    · rw [h1]; rfl
    · rw [h2]; rfl
    · intro p hp
      simp only [partPathsFrom] at hp
      rcases List.mem_cons.mp hp with rfl | hp'
      · exact synthLoop_exists_mono env dir base _ (i + 1) _ _
          (FS.existsF_write_self _ _ _)
      · exact h3 p hp'

/-! ## Path arithmetic: part files, final artifact and concat list are
pairwise distinct -/

theorem natToStr_len_pos (n : Nat) : 0 < (natToStr n).length := by
  simp only [natToStr, toDigitsAux]
  split
  · simp
  · simp

theorem pathJoin_length (dir n : Str) :
    (pathJoin dir n).length = dir.length + n.length + 1 := by
  simp [pathJoin]
  omega

theorem partPath_ne_final (dir base : Str) (j : Nat) :
    partPath dir base j ≠ pathJoin dir (base ++ str ".mp3") := by
  intro h
  have hl := congrArg List.length h
  rw [partPath, pathJoin_length, pathJoin_length] at hl
  simp only [List.length_append] at hl
  have h1 := natToStr_len_pos j
  have h2 : (str ".mp3").length = 4 := by decide
  have h3 : (str "-part").length = 5 := by decide
  rw [h2, h3] at hl
  omega

theorem append_mp3_ne_append_txt (x y : Str) :
    x ++ str ".mp3" ≠ y ++ str ".txt" := by
  intro h
  have h2 := congrArg (fun l => l.reverse.head?) h
  simp only [List.reverse_append] at h2
  rw [show (str ".mp3").reverse = ['3', 'p', 'm', '.'] from by decide,
    show (str ".txt").reverse = ['t', 'x', 't', '.'] from by decide] at h2
  simp at h2

theorem clp_as_append (dir : Str) :
    pathJoin dir concatListName = (dir ++ '/' :: str ".concat-list") ++ str ".txt" := by
  rw [pathJoin, concatListName,
    show str ".concat-list.txt" = str ".concat-list" ++ str ".txt" from by decide]
  simp [List.append_assoc]

theorem partPath_as_append (dir base : Str) (j : Nat) :
    partPath dir base j
      = (dir ++ '/' :: (base ++ str "-part" ++ natToStr j)) ++ str ".mp3" := by
  rw [partPath, pathJoin]
  simp [List.append_assoc]

theorem final_as_append (dir base : Str) :
    pathJoin dir (base ++ str ".mp3") = (dir ++ '/' :: base) ++ str ".mp3" := by
  rw [pathJoin]
  simp [List.append_assoc]

theorem partPath_ne_clp (dir base : Str) (j : Nat) :
    partPath dir base j ≠ pathJoin dir concatListName := by
  rw [partPath_as_append, clp_as_append]
  exact append_mp3_ne_append_txt _ _

theorem final_ne_clp (dir base : Str) :
    pathJoin dir (base ++ str ".mp3") ≠ pathJoin dir concatListName := by
  rw [final_as_append, clp_as_append]
  exact append_mp3_ne_append_txt _ _

theorem mem_partPathsFrom (dir base : Str) :
    ∀ (cs : List Str) (i : Nat) (p : Str),
      p ∈ partPathsFrom dir base i cs → ∃ j, p = partPath dir base j := by
  intro cs
  induction cs with
  | nil => intro i p hp; simp [partPathsFrom] at hp
  | cons c cs ih =>
    intro i p hp
    simp only [partPathsFrom] at hp
    rcases List.mem_cons.mp hp with rfl | hp'
    · exact ⟨i + 1, rfl⟩
    · exact ih (i + 1) p hp'

/-! ## The unlink loop of the merge success path -/

theorem unlinkIf_foldl_contents (parts : List Str) :
    ∀ (fs : FS) (p : Str), (∀ q ∈ parts, p ≠ q) →
      (parts.foldl (fun f q => if f.existsF q then f.unlink q else f) fs).contents p
        = fs.contents p := by
  induction parts with
  | nil => intro fs p _; rfl
  | cons q parts ih =>
    intro fs p hp
    rw [List.foldl_cons]
    rw [ih _ p (fun r hr => hp r (List.mem_cons_of_mem _ hr))]
    have hne : p ≠ q := hp q (List.mem_cons_self _ _)
    split
    · exact FS.contents_unlink_ne hne
    · rfl

theorem unlinkIf_foldl_false (parts : List Str) :
    ∀ (fs : FS) (p : Str), fs.existsF p = false →
      (parts.foldl (fun f q => if f.existsF q then f.unlink q else f) fs).existsF p
        = false := by
  induction parts with
  | nil => intro fs p h; exact h
  | cons q parts ih =>
    intro fs p h
    rw [List.foldl_cons]
    refine ih _ p ?_
    split
    · by_cases hpq : p = q
      · subst hpq; exact FS.existsF_unlink_self _ _
      · rw [FS.existsF, FS.contents_unlink_ne hpq]; exact h
    · exact h

theorem unlinkIf_foldl_mem (parts : List Str) :
    ∀ (fs : FS) (p : Str), p ∈ parts →
      (parts.foldl (fun f q => if f.existsF q then f.unlink q else f) fs).existsF p
        = false := by
  induction parts with
  | nil => intro fs p hp; simp at hp
  | cons q parts ih =>
    intro fs p hp
    rcases List.mem_cons.mp hp with rfl | hp'
    · rw [List.foldl_cons]
      refine unlinkIf_foldl_false parts _ p ?_
      split
      · exact FS.existsF_unlink_self _ _
      · rename_i hcond
        simp only [Bool.not_eq_true] at hcond
        exact hcond
    · rw [List.foldl_cons]
      exact ih _ p hp'

/-! ## The merge step -/

theorem concat_tr (env : Env) (dir : Str) (fs : FS) (parts : List Str)
    (out : Str) :
    (concatenateAudioFiles env dir fs parts out).tr = [.merge parts out] := by
  cases hm : env.mergeO with
  | ok => simp [concatenateAudioFiles, hm]
  | fail residue m => simp [concatenateAudioFiles, hm]

theorem concat_ok (env : Env) (dir : Str) (fs : FS) (parts : List Str)
    (out : Str) (hm : env.mergeO = .ok)
    (hout_parts : ∀ p ∈ parts, out ≠ p)
    (hout_clp : out ≠ pathJoin dir concatListName) :
    (concatenateAudioFiles env dir fs parts out).res = .ok () ∧
    (∀ p ∈ parts,
      (concatenateAudioFiles env dir fs parts out).fs.existsF p = false) ∧
    (concatenateAudioFiles env dir fs parts out).fs.existsF
        (pathJoin dir concatListName) = false ∧
    (concatenateAudioFiles env dir fs parts out).fs.existsF out = true := by
  simp only [concatenateAudioFiles, hm]
  refine ⟨trivial, ?_, ?_, ?_⟩
  · intro p hp
    exact unlinkIf_foldl_mem parts _ p hp
  · refine unlinkIf_foldl_false parts _ _ ?_
    exact FS.existsF_unlink_self _ _
  · rw [FS.existsF, unlinkIf_foldl_contents parts _ out hout_parts,
      FS.contents_unlink_ne hout_clp]
    exact FS.existsF_write_self _ _ _

theorem concat_fail (env : Env) (dir : Str) (fs : FS) (parts : List Str)
    (out : Str) (residue : Option Audio) (m : Str)
    (hm : env.mergeO = .fail residue m) :
    (concatenateAudioFiles env dir fs parts out).res
        = .error (str "FFmpeg concatenation failed: " ++ m) ∧
    (concatenateAudioFiles env dir fs parts out).fs.existsF
        (pathJoin dir concatListName) = false ∧
    (∀ p, p ≠ pathJoin dir concatListName → p ≠ out →
      (concatenateAudioFiles env dir fs parts out).fs.contents p
        = fs.contents p) ∧
    (residue.isSome = true → out ≠ pathJoin dir concatListName →
      (concatenateAudioFiles env dir fs parts out).fs.existsF out = true) := by
  simp only [concatenateAudioFiles, hm]
  refine ⟨trivial, ?_, ?_, ?_⟩
  · split
    · exact FS.existsF_unlink_self _ _
    · rename_i hcond
      simp only [Bool.not_eq_true] at hcond
      exact hcond
  · intro p hclp hout
    have hbase : ∀ fs1 : FS,
        ((if fs1.existsF (pathJoin dir concatListName) = true
          then fs1.unlink (pathJoin dir concatListName) else fs1)).contents p
          = fs1.contents p := by
      intro fs1
      split
      · exact FS.contents_unlink_ne hclp
      · rfl
    cases residue with
    | none =>
      rw [hbase]
      exact FS.contents_write_ne _ hclp
    | some b =>
      rw [hbase, FS.contents_write_ne _ hout]
      exact FS.contents_write_ne _ hclp
  · intro hres hone
    cases residue with
    | none => simp at hres
    | some b =>
      have hbase : ∀ fs1 : FS,
          ((if fs1.existsF (pathJoin dir concatListName) = true
            then fs1.unlink (pathJoin dir concatListName) else fs1)).contents out
            = fs1.contents out := by
        intro fs1
        split
        · exact FS.contents_unlink_ne hone
        · rfl
      rw [FS.existsF, hbase]
      have := FS.existsF_write_self ((fs.write (pathJoin dir concatListName)
        (concatListContent parts))) out b
      rw [FS.existsF] at this
      exact this

/-! ## The chunked build path (claims C4, C5, C7, C9) -/

theorem chunked_build_synth_fail (env : Env) (dir : Str) (fs : FS)
    (base cleaned : Str) (cs₁ : List Str) (c : Str) (cs₂ : List Str) (e : Str)
    (hlen : MAX_CHARS_PER_REQUEST < cleaned.length)
    (hchunks : splitTextIntoChunks cleaned = cs₁ ++ c :: cs₂)
    (hok : ∀ x ∈ cs₁, ∃ b, env.synthO x = .audio b)
    (he : synthErrOf (env.synthO c) = some e) :
    (generateChapterAudioWithChunking env dir fs base cleaned).res = .error e ∧
    (generateChapterAudioWithChunking env dir fs base cleaned).tr
        = (cs₁ ++ [c]).map Ev.synth ∧
    ∀ p ∈ partPathsFrom dir base 0 cs₁,
      (generateChapterAudioWithChunking env dir fs base cleaned).fs.existsF p
        = true := by
  have hnle : ¬(cleaned.length ≤ MAX_CHARS_PER_REQUEST) := not_le.mpr hlen
  obtain ⟨hf1, hf2, hf3⟩ := synthLoop_fail env dir base cs₁ c cs₂ 0 fs e hok he
  simp only [generateChapterAudioWithChunking, hnle, if_false, hchunks, hf1]
  exact ⟨trivial, hf2, hf3⟩

/-- C9 (amended): when the synthesis capability fails (or returns no
payload) on a segment of a chunked build, the build fails immediately: the
surfaced error is the stage-prefixed underlying message, exactly the
segments before and including the offending one have been sent to the
synthesis capability, and the merge capability is never invoked.  (The
error does not carry the offending segment's index, see the
counterexample.) -/
theorem synthesis_failure_aborts (env : Env) (dir : Str) (fs : FS)
    (base cleaned : Str) (cs₁ : List Str) (c : Str) (cs₂ : List Str) (e : Str)
    (hlen : MAX_CHARS_PER_REQUEST < cleaned.length)
    (hchunks : splitTextIntoChunks cleaned = cs₁ ++ c :: cs₂)
    (hok : ∀ x ∈ cs₁, ∃ b, env.synthO x = .audio b)
    (he : synthErrOf (env.synthO c) = some e) :
    (generateChapterAudioWithChunking env dir fs base cleaned).res = .error e ∧
    synthCalls (generateChapterAudioWithChunking env dir fs base cleaned).tr
        = cs₁ ++ [c] ∧
    mergeCalls (generateChapterAudioWithChunking env dir fs base cleaned).tr
        = [] := by
  obtain ⟨h1, h2, _⟩ :=
    chunked_build_synth_fail env dir fs base cleaned cs₁ c cs₂ e hlen hchunks hok he
  refine ⟨h1, ?_, ?_⟩
  · rw [h2, synthCalls_map_synth]
  · rw [h2, mergeCalls_map_synth]

theorem bigT_over_ceiling : MAX_CHARS_PER_REQUEST < bigT.length := by
  rw [bigT_length]; decide

theorem chunks_bigT_decomp : splitTextIntoChunks bigT = [bigA] ++ ['b'] :: [] := by
  rw [chunks_bigT]
  rfl

theorem envFail_ok_bigA : ∀ x ∈ [bigA], ∃ b, envFail.synthO x = .audio b := by
  intro x hx
  rw [List.mem_singleton] at hx
  subst hx
  refine ⟨[7], ?_⟩
  simp only [envFail]
  rw [bigA_length]
  rw [if_neg (by decide)]

theorem envFail_err_b :
    synthErrOf (envFail.synthO ['b'])
      = some (str "TTS generation failed: boom") := by decide

/-- Witness for the amended C9 theorem at a concrete failing build. -/
theorem synthesis_failure_aborts_witness :
    (generateChapterAudioWithChunking envFail dir0 FS.empty base0 bigT).res
        = .error (str "TTS generation failed: boom") ∧
    synthCalls (generateChapterAudioWithChunking envFail dir0 FS.empty base0 bigT).tr
        = [bigA] ++ [['b']] ∧
    mergeCalls (generateChapterAudioWithChunking envFail dir0 FS.empty base0 bigT).tr
        = [] :=
  synthesis_failure_aborts envFail dir0 FS.empty base0 bigT [bigA] ['b'] []
    (str "TTS generation failed: boom") bigT_over_ceiling chunks_bigT_decomp
    envFail_ok_bigA envFail_err_b

/-- C9 counterexample: the error surfaced for a synthesis failure on
segment index 1 (the second of two segments) is exactly
`TTS generation failed: boom`, a string containing no digit at all — the
error does not carry the offending segment's index. -/
theorem synthesis_error_lacks_index :
    (generateChapterAudioWithChunking envFail dir0 FS.empty base0 bigT).res
        = .error (str "TTS generation failed: boom") ∧
    ∀ ch ∈ str "TTS generation failed: boom", ch.isDigit = false := by
  refine ⟨?_, by decide⟩
  exact (chunked_build_synth_fail envFail dir0 FS.empty base0 bigT [bigA] ['b'] []
    (str "TTS generation failed: boom") bigT_over_ceiling chunks_bigT_decomp
    envFail_ok_bigA envFail_err_b).1

/-- C4 counterexample: a chunked build whose synthesis fails on the second
segment ends in an error, yet the temporary part file written for the
first segment remains on disk — cleanup does not happen on this exit
path. -/
theorem failed_build_leaves_part_files :
    (∃ e, (generateChapterAudioWithChunking envFail dir0 FS.empty base0 bigT).res
        = .error e) ∧
    (generateChapterAudioWithChunking envFail dir0 FS.empty base0 bigT).fs.existsF
        (partPath dir0 base0 1) = true := by
  obtain ⟨h1, _, h3⟩ :=
    chunked_build_synth_fail envFail dir0 FS.empty base0 bigT [bigA] ['b'] []
      (str "TTS generation failed: boom") bigT_over_ceiling chunks_bigT_decomp
      envFail_ok_bigA envFail_err_b
  refine ⟨⟨_, h1⟩, h3 _ ?_⟩
  simp [partPathsFrom]

/-- C5: after a successful chunked build, the final artifact exists at the
output path, while every temporary part file passed to the concatenation
step and the concat-list helper file have been removed. -/
theorem chunked_build_success_cleanup (env : Env) (dir : Str) (fs : FS)
    (base cleaned : Str)
    (hlen : MAX_CHARS_PER_REQUEST < cleaned.length)
    (hok : ∀ c ∈ splitTextIntoChunks cleaned, ∃ b, env.synthO c = .audio b)
    (hm : env.mergeO = .ok) :
    (∃ af, (generateChapterAudioWithChunking env dir fs base cleaned).res
        = .ok af ∧ af.filePath = pathJoin dir (base ++ str ".mp3")) ∧
    (∀ p ∈ partPathsFrom dir base 0 (splitTextIntoChunks cleaned),
      (generateChapterAudioWithChunking env dir fs base cleaned).fs.existsF p
        = false) ∧
    (generateChapterAudioWithChunking env dir fs base cleaned).fs.existsF
        (pathJoin dir concatListName) = false ∧
    (generateChapterAudioWithChunking env dir fs base cleaned).fs.existsF
        (pathJoin dir (base ++ str ".mp3")) = true := by
  have hnle : ¬(cleaned.length ≤ MAX_CHARS_PER_REQUEST) := not_le.mpr hlen
  obtain ⟨hl1, hl2, hl3⟩ :=
    synthLoop_ok env dir base (splitTextIntoChunks cleaned) 0 fs hok
  have hparts : ∀ p ∈ partPathsFrom dir base 0 (splitTextIntoChunks cleaned),
      pathJoin dir (base ++ str ".mp3") ≠ p := by
    intro p hp
    obtain ⟨j, rfl⟩ := mem_partPathsFrom dir base _ _ p hp
    exact (partPath_ne_final dir base j).symm
  obtain ⟨hc1, hc2, hc3, hc4⟩ := concat_ok env dir
    ((synthLoop env dir base (splitTextIntoChunks cleaned) 0 fs).2.1)
    (partPathsFrom dir base 0 (splitTextIntoChunks cleaned))
    (pathJoin dir (base ++ str ".mp3")) hm hparts (final_ne_clp dir base)
  simp only [generateChapterAudioWithChunking, hnle, if_false, hl1, hc1]
  exact ⟨⟨_, rfl, rfl⟩, hc2, hc3, hc4⟩

/-- Witness for the C5 theorem at a concrete successful chunked build. -/
theorem chunked_build_success_cleanup_witness :
    (∃ af, (generateChapterAudioWithChunking envOK dir0 FS.empty base0 bigT).res
        = .ok af ∧ af.filePath = pathJoin dir0 (base0 ++ str ".mp3")) ∧
    (∀ p ∈ partPathsFrom dir0 base0 0 (splitTextIntoChunks bigT),
      (generateChapterAudioWithChunking envOK dir0 FS.empty base0 bigT).fs.existsF p
        = false) ∧
    (generateChapterAudioWithChunking envOK dir0 FS.empty base0 bigT).fs.existsF
        (pathJoin dir0 concatListName) = false ∧
    (generateChapterAudioWithChunking envOK dir0 FS.empty base0 bigT).fs.existsF
        (pathJoin dir0 (base0 ++ str ".mp3")) = true :=
  chunked_build_success_cleanup envOK dir0 FS.empty base0 bigT
    bigT_over_ceiling (fun _ _ => ⟨[7], rfl⟩) rfl

/-- C7: a build over the ceiling sends exactly the segment list, in
ascending order, to the synthesis capability — one call per segment
(provided synthesis succeeds on every segment; a failing segment aborts
the loop, see the C9 theorems). -/
theorem sequential_synthesis_calls (env : Env) (dir : Str) (fs : FS)
    (base cleaned : Str)
    (hlen : MAX_CHARS_PER_REQUEST < cleaned.length)
    (hok : ∀ c ∈ splitTextIntoChunks cleaned, ∃ b, env.synthO c = .audio b) :
    synthCalls (generateChapterAudioWithChunking env dir fs base cleaned).tr
      = splitTextIntoChunks cleaned := by
  have hnle : ¬(cleaned.length ≤ MAX_CHARS_PER_REQUEST) := not_le.mpr hlen
  obtain ⟨hl1, hl2, hl3⟩ :=
    synthLoop_ok env dir base (splitTextIntoChunks cleaned) 0 fs hok
  simp only [generateChapterAudioWithChunking, hnle, if_false, hl1]
  split
  · simp only [synthCalls_append, hl2, synthCalls_map_synth, concat_tr]
    simp [synthCalls]
  · simp only [synthCalls_append, hl2, synthCalls_map_synth, concat_tr]
    simp [synthCalls]

/-- Witness for the C7 theorem at a concrete two-segment build. -/
theorem sequential_synthesis_calls_witness :
    synthCalls (generateChapterAudioWithChunking envOK dir0 FS.empty base0 bigT).tr
      = splitTextIntoChunks bigT :=
  sequential_synthesis_calls envOK dir0 FS.empty base0 bigT
    bigT_over_ceiling (fun _ _ => ⟨[7], rfl⟩)

/-- C4 (amended): after a chunked build whose merge step fails, the
concat-list helper file has been removed, but every temporary part file
written during the attempt remains on disk, and a partially written final
output left by the merge process is not discarded. -/
theorem merge_failure_partial_cleanup (env : Env) (dir : Str) (fs : FS)
    (base cleaned : Str) (rb : Audio) (m : Str)
    (hlen : MAX_CHARS_PER_REQUEST < cleaned.length)
    (hok : ∀ c ∈ splitTextIntoChunks cleaned, ∃ b, env.synthO c = .audio b)
    (hm : env.mergeO = .fail (some rb) m) :
    (generateChapterAudioWithChunking env dir fs base cleaned).res
        = .error (str "FFmpeg concatenation failed: " ++ m) ∧
    (generateChapterAudioWithChunking env dir fs base cleaned).fs.existsF
        (pathJoin dir concatListName) = false ∧
    (∀ p ∈ partPathsFrom dir base 0 (splitTextIntoChunks cleaned),
      (generateChapterAudioWithChunking env dir fs base cleaned).fs.existsF p
        = true) ∧
    (generateChapterAudioWithChunking env dir fs base cleaned).fs.existsF
        (pathJoin dir (base ++ str ".mp3")) = true := by
  have hnle : ¬(cleaned.length ≤ MAX_CHARS_PER_REQUEST) := not_le.mpr hlen
  obtain ⟨hl1, hl2, hl3⟩ :=
    synthLoop_ok env dir base (splitTextIntoChunks cleaned) 0 fs hok
  obtain ⟨hc1, hc2, hc3, hc4⟩ := concat_fail env dir
    ((synthLoop env dir base (splitTextIntoChunks cleaned) 0 fs).2.1)
    (partPathsFrom dir base 0 (splitTextIntoChunks cleaned))
    (pathJoin dir (base ++ str ".mp3")) (some rb) m hm
  simp only [generateChapterAudioWithChunking, hnle, if_false, hl1, hc1]
  refine ⟨trivial, hc2, ?_, hc4 rfl (final_ne_clp dir base)⟩
  intro p hp
  obtain ⟨j, hj⟩ := mem_partPathsFrom dir base _ _ p hp
  rw [FS.existsF, hc3 p (by rw [hj]; exact partPath_ne_clp dir base j)
    (by rw [hj]; exact (partPath_ne_final dir base j))]
  exact hl3 p hp

/-- Witness for the amended C4 theorem at a concrete failing merge. -/
theorem merge_failure_partial_cleanup_witness :
    (generateChapterAudioWithChunking envMergeFail dir0 FS.empty base0 bigT).res
        = .error (str "FFmpeg concatenation failed: " ++ str "boom") ∧
    (generateChapterAudioWithChunking envMergeFail dir0 FS.empty base0 bigT).fs.existsF
        (pathJoin dir0 concatListName) = false ∧
    (∀ p ∈ partPathsFrom dir0 base0 0 (splitTextIntoChunks bigT),
      (generateChapterAudioWithChunking envMergeFail dir0 FS.empty base0 bigT).fs.existsF p
        = true) ∧
    (generateChapterAudioWithChunking envMergeFail dir0 FS.empty base0 bigT).fs.existsF
        (pathJoin dir0 (base0 ++ str ".mp3")) = true :=
  merge_failure_partial_cleanup envMergeFail dir0 FS.empty base0 bigT [1]
    (str "boom") bigT_over_ceiling (fun _ _ => ⟨[7], rfl⟩) rfl
